import Mathlib

/-!
# tfm: a terminal file manager (`src/main.cpp`)

A shallow embedding of the listing function `getFiles`, of
`renameFileOrDirectory` and of the key dispatch loop of `main`, together with
theorems about the ordering of listings, the navigation state and the mark set.

Conventions of the embedding:

* C++ `std::string` is `String`; `a < b` on strings is the lexicographic order
  of `String` (code point order, which coincides with the byte order of the
  UTF-8 encodings that `std::string::operator<` compares).
* C++ `int` is `Int` (the values are list lengths and screen rows, far from
  overflow).
* `files[selectedIndex]` is a checked read: an index outside the vector gives
  `Halt.outOfBounds`.
* The file system and the terminal are the environment. Each answer the
  environment gives (a directory read, `is_directory`, `exists`, the key typed
  at a prompt, the result of a removal) is an input of the embedded function.
  `fs::is_directory` may throw: inside `getFiles` the `catch` takes the
  exception, in the `Enter` handler nothing does.
* The calls of mutating file system operations are recorded in the field
  `effects` of the state, so that "nothing was renamed" is a statement about
  the state.
-/

namespace Tfm

/-! ## The observable file system -/

/-- Result of walking `fs::directory_iterator(directory)`: the file names it
yielded, in enumeration order, and whether the walk finished without throwing. -/
structure DirRead where
  names : List String
  ok : Bool

/-- One snapshot of the file system, as far as the program queries it. -/
structure FS where
  /-- Models `fs::directory_iterator`. -/
  readDir : String → DirRead
  /-- Models `fs::is_directory`; `none` when it throws (a `stat` error such as EACCES or
  ELOOP). -/
  isDirectory : String → Option Bool
  /-- Models `fs::exists`. -/
  pathExists : String → Bool
  /-- The vector that `std::sort` leaves behind when its comparator throws, for the given
  `currentPath` and the vector it was started on: the same elements, in the order the
  interrupted sort had reached. -/
  abortedSort : String → (files : List String) → { out : List String // out.Perm files }

/-! ## `getFiles` (main.cpp 39-77) -/

/-- Models `std::string::find(q)` on the characters of the string: the position of the first
occurrence of `q`, or `none` for `npos`. -/
def find : List Char → List Char → Option Nat
  | [], q => if q.isPrefixOf [] then some 0 else none
  | c :: t, q => if q.isPrefixOf (c :: t) then some 0 else (find t q).map (· + 1)

/-- Line 61: `!a.empty() && a[0] == '.'`. -/
def isHidden (a : String) : Bool :=
  match a.data with
  | [] => false
  | c :: _ => c == '.'

/-- The comparator handed to `std::sort` (lines 55-70). It queries `is_directory` below the
global `currentPath`, for both arguments and before anything else, and throws (`none`) when one
of the two queries throws. The last line compares the two character sequences
lexicographically. -/
def less (fs : FS) (currentPath : String) (a b : String) : Option Bool :=
  let pathA := currentPath ++ "/" ++ a
  let pathB := currentPath ++ "/" ++ b
  match fs.isDirectory pathA, fs.isDirectory pathB with
  | some isDirA, some isDirB =>
    let isHiddenA := isHidden a
    let isHiddenB := isHidden b
    some (if isDirA != isDirB then decide (isDirA > isDirB)
      else if isHiddenA != isHiddenB then decide (isHiddenA > isHiddenB)
      else decide (a.data < b.data))
  | _, _ => none

/-- Insertion of one element into a list sorted by the comparator `lt`; `none` when a
comparison throws. -/
def insertSorted (lt : String → String → Option Bool) (x : String) :
    List String → Option (List String)
  | [] => some [x]
  | y :: ys =>
    match lt x y with
    | none => none
    | some true => some (x :: y :: ys)
    | some false =>
      match insertSorted lt x ys with
      | none => none
      | some rest => some (y :: rest)

/-- Models `std::sort(files.begin(), files.end(), lt)`, `none` when a comparison throws. The
outcome does not depend on the sorting algorithm: a sort of two or more elements compares every
element at least once, so it throws exactly when `is_directory` throws for one of them
(`sort_eq_none_iff`), and on pairwise distinct names that can all be queried the comparator
`less` is a strict total order, so every algorithm returns the same list (`sort_unique`).
Insertion sort is the one written down here. -/
def sort (lt : String → String → Option Bool) : List String → Option (List String)
  | [] => some []
  | x :: xs =>
    match sort lt xs with
    | none => none
    | some sorted => insertSorted lt x sorted

/-- Line 47: the entry is kept unless the query is non-empty and not found in the name. -/
def keeps (filterQuery filename : String) : Bool :=
  !(!filterQuery.data.isEmpty && (find filename.data filterQuery.data).isNone)

/-- Models `getFiles(directory, filterQuery)` with the global `currentPath` as a parameter.
The walk and the sort are both inside the `try` of lines 42-74. When the walk throws, the `catch`
leaves `files` as collected so far, unsorted; when the comparator throws during the sort, the
`catch` leaves `files` as the interrupted sort arranged it. -/
def getFiles (fs : FS) (currentPath directory : String) (filterQuery : String) : List String :=
  let r := fs.readDir directory
  let files := r.names.filter (keeps filterQuery)
  if r.ok then
    match sort (less fs currentPath) files with
    | some sorted => sorted
    | none => (fs.abortedSort currentPath files).val
  else files

/-- A one-directory file system for concrete runs: the children of every directory are `entries`
(name, is it a directory), enumerated in the given order; every query is answered. -/
def flatFS (entries : List (String × Bool)) : FS where
  readDir _ := ⟨entries.map Prod.fst, true⟩
  isDirectory p := some (entries.any fun e => e.2 && ('/' :: e.1.data).isSuffixOf p.data)
  pathExists p := entries.any fun e => ('/' :: e.1.data).isSuffixOf p.data
  abortedSort _ files := ⟨files, List.Perm.refl files⟩

/-- A directory that can be read but not searched (mode `r--`), for concrete runs: the walk
yields `names`, every `is_directory` below it throws, and the sort is abandoned at its first
comparison, before any element has moved. (`fs::exists` is not queried in the runs that use
it.) -/
def unsearchableFS (names : List String) : FS where
  readDir _ := ⟨names, true⟩
  isDirectory _ := none
  pathExists _ := false
  abortedSort _ files := ⟨files, List.Perm.refl files⟩

/-! ## The session state (globals of main.cpp and locals of `main`) -/

/-- Ways in which an iteration of the loop does not reach the next one. -/
inductive Halt where
  /-- A read `files[selectedIndex]` outside the vector. -/
  | outOfBounds
  /-- The loop was left: `q`, or the `break` of the `g` handler. -/
  | exited
  /-- An exception of a file system call that no `catch` covers. -/
  | uncaught
  /-- A prompt waits for a key and the recorded input has none left. -/
  | blocked
  deriving DecidableEq, Repr

/-- Calls of mutating operations, in the order the program makes them. -/
inductive Effect where
  | rename (oldPath newPath : String)
  | createFile (path : String)
  | createDirectory (path : String)
  | removeAll (path : String)
  | remove (path : String)
  | editor (command : String)
  deriving DecidableEq, Repr

/-- The globals `currentPath`, `selectedIndex`, `scrollOffset`, `markedFiles`, `filterQuery`,
the local `files` of `main`, and the trace of mutating calls made so far. -/
structure State where
  currentPath : String
  files : List String
  selectedIndex : Int
  scrollOffset : Int
  markedFiles : Finset String
  filterQuery : String
  effects : List Effect
  deriving DecidableEq

/-- The read `files[i]` with an `int` index. -/
def index (files : List String) (i : Int) : Except Halt String :=
  if 0 ≤ i then
    match files[i.toNat]? with
    | some x => .ok x
    | none => .error .outOfBounds
  else .error .outOfBounds

/-- The expression `files.empty() ? "" : files[selectedIndex]` of lines 284, 368 and 484. -/
def previewTarget (files : List String) (selectedIndex : Int) : Except Halt String :=
  if files.isEmpty then .ok "" else index files selectedIndex

/-! ## `renameFileOrDirectory` (main.cpp 150-188) -/

/-- Models `renameFileOrDirectory`. `newName` is what `wgetnstr` read, `fs` answers `fs::exists`,
`thrown` is the text of the exception of `fs::rename` (`none` when it returns), `post` is the
file system that the relisting sees. The result carries the message printed on the prompt. -/
def renameFileOrDirectory (newName : String) (fs : FS) (thrown : Option String) (post : FS)
    (s : State) : Except Halt (Option String × State) :=
  if s.files.isEmpty then .ok (none, s)
  else do
    let selectedItem ← index s.files s.selectedIndex
    let oldPath := s.currentPath ++ "/" ++ selectedItem
    if newName = "" then
      .ok (some "Error: Name cannot be empty! ", s)
    else
      let newPath := s.currentPath ++ "/" ++ newName
      if fs.pathExists newPath then
        .ok (some "Error: File already exists! ", s)
      else
        let s1 := { s with effects := s.effects ++ [Effect.rename oldPath newPath] }
        match thrown with
        | none =>
          .ok (some "Renamed successfully! ",
            { s1 with files := getFiles post s1.currentPath s1.currentPath "", selectedIndex := 0 })
        | some what => .ok (some ("Error: " ++ what), s1)

/-! ## The loop of `main` (main.cpp 238-496) -/

/-- Value of `KEY_BACKSPACE` in ncurses.h (octal 0407). -/
def KEY_BACKSPACE : Int := 263

/-- One iteration of the loop, named by the key that `wgetch(leftPanel)` returned, with the
answers of the environment that its handler consumes. The handlers test the same `ch` against
different keys, so one iteration runs one handler. -/
inductive Action where
  /-- Key `KEY_UP` or `k`. -/
  | moveUp
  /-- Key `KEY_DOWN` or `j`. -/
  | moveDown
  /-- Key `KEY_RIGHT` or `l`; `fs` answers `is_directory` and the relisting. -/
  | enter (fs : FS)
  /-- Key `KEY_LEFT` or `h`; `parentPath` is `fs::path(currentPath).parent_path().string()`. -/
  | leave (parentPath : String) (fs : FS)
  /-- Key `G`. -/
  | jumpBottom
  /-- Key `g` followed by the key `d`. -/
  | gThen (d : Int)
  /-- Key `n`; `opened` tells whether the `ofstream` opened. -/
  | newFile (name : String) (fs : FS) (opened : Bool) (post : FS)
  /-- Key `N`; `created` is the result of `fs::create_directory`, `none` when it throws. -/
  | newDirectory (name : String) (fs : FS) (created : Option Bool) (post : FS)
  /-- Key `r`. -/
  | rename (newName : String) (fs : FS) (thrown : Option String) (post : FS)
  /-- Key `d`; `removed` is the count returned by `fs::remove_all`, `none` when it throws. -/
  | delete (confirm : Int) (removed : Option Nat) (post : FS)
  /-- Key space. -/
  | toggleMark
  /-- Key `D`; for each marked name the key typed at the prompt and the result of `fs::remove`
  (`none` when it throws). -/
  | batchDelete (confirm : String → Int) (removed : String → Option Bool) (post : FS)
  /-- Key `/`; `keys` are the keys typed at the filter prompt. -/
  | startFilter (keys : List Int) (fs : FS)
  /-- Key `q`. -/
  | quit
  /-- Any other key. -/
  | other

/-- Lines 246-251. -/
def moveUp (s : State) : State :=
  if s.selectedIndex > 0 then
    let s1 := { s with selectedIndex := s.selectedIndex - 1 }
    if s1.selectedIndex < s1.scrollOffset then { s1 with scrollOffset := s1.scrollOffset - 1 }
    else s1
  else s

/-- Lines 253-258. -/
def moveDown (maxItems : Int) (s : State) : State :=
  if s.selectedIndex < (s.files.length : Int) - 1 then
    let s1 := { s with selectedIndex := s.selectedIndex + 1 }
    if s1.selectedIndex ≥ s1.scrollOffset + maxItems then
      { s1 with scrollOffset := s1.scrollOffset + 1 }
    else s1
  else s

/-- Lines 260-293. The `is_directory` of line 265 is outside every `try`. -/
def enter (fs : FS) (s : State) : Except Halt State :=
  if !s.files.isEmpty then do
    let selectedItem ← index s.files s.selectedIndex
    let fullPath := s.currentPath ++ "/" ++ selectedItem
    match fs.isDirectory fullPath with
    | none => .error .uncaught
    | some isDir =>
      let s1 :=
        if isDir then
          { s with currentPath := fullPath, files := getFiles fs fullPath fullPath "",
                   selectedIndex := 0, scrollOffset := 0 }
        else { s with effects := s.effects ++ [Effect.editor ("nvim " ++ fullPath)] }
      let _ ← previewTarget s1.files s1.selectedIndex
      pure s1
  else .ok s

/-- Lines 295-311. -/
def leave (parentPath : String) (fs : FS) (s : State) : State :=
  if s.currentPath ≠ "/" then
    let parentPath := if parentPath = "" then "/" else parentPath
    { s with currentPath := parentPath, files := getFiles fs parentPath parentPath "",
             selectedIndex := 0, scrollOffset := 0 }
  else s

/-- Lines 312-315. -/
def jumpBottom (maxItems : Int) (s : State) : State :=
  let selectedIndex : Int := s.files.length
  { s with selectedIndex := selectedIndex, scrollOffset := max 0 (selectedIndex - maxItems + 1) }

/-- Lines 316-324: `gg` goes to the top, `g` and another key leaves the loop. -/
def gThen (d : Int) (s : State) : Except Halt State :=
  if d = 103 then .ok { s with selectedIndex := 0, scrollOffset := 0 }
  else .error .exited

/-- Lines 325-363 for the key `n`. -/
def newFile (name : String) (fs : FS) (post : FS) (s : State) : State :=
  let newPath := s.currentPath ++ "/" ++ name
  let s1 :=
    if fs.pathExists newPath then s
    else { s with effects := s.effects ++ [Effect.createFile newPath] }
  { s1 with files := getFiles post s1.currentPath s1.currentPath "" }

/-- Lines 325-363 for the key `N`. -/
def newDirectory (name : String) (fs : FS) (created : Option Bool) (post : FS) (s : State) :
    Except Halt State :=
  let newPath := s.currentPath ++ "/" ++ name
  if fs.pathExists newPath then
    .ok { s with files := getFiles post s.currentPath s.currentPath "" }
  else
    match created with
    | none => .error .uncaught
    | some _ =>
      .ok { s with effects := s.effects ++ [Effect.createDirectory newPath],
                   files := getFiles post s.currentPath s.currentPath "" }

/-- Lines 381-403. -/
def delete (confirm : Int) (removed : Option Nat) (post : FS) (s : State) : Except Halt State :=
  if !s.files.isEmpty then do
    let selectedItem ← index s.files s.selectedIndex
    let filePath := s.currentPath ++ "/" ++ selectedItem
    if confirm = 121 ∨ confirm = 89 then
      match removed with
      | none => .error .uncaught
      | some n =>
        let s1 := { s with effects := s.effects ++ [Effect.removeAll filePath] }
        if n ≠ 0 then .ok { s1 with files := getFiles post s1.currentPath s1.currentPath "" }
        else .ok s1
    else .ok s
  else .ok s

/-- Lines 404-412. -/
def toggleMark (s : State) : Except Halt State :=
  if !s.files.isEmpty then do
    let selectedFile ← index s.files s.selectedIndex
    if selectedFile ∈ s.markedFiles then
      pure { s with markedFiles := s.markedFiles.erase selectedFile }
    else
      pure { s with markedFiles := insert selectedFile s.markedFiles }
  else .ok s

/-- The `for` of lines 414-434 over the marked names. The assignments to `files` inside it are
overwritten by the one of line 436 and are left out. -/
def batchLoop (confirm : String → Int) (removed : String → Option Bool) (currentPath : String) :
    List String → List Effect → Except Halt (List Effect)
  | [], effects => .ok effects
  | file :: rest, effects =>
    let filePath := currentPath ++ "/" ++ file
    if confirm file = 121 ∨ confirm file = 89 then
      match removed file with
      | none => .error .uncaught
      | some _ => batchLoop confirm removed currentPath rest (effects ++ [Effect.remove filePath])
    else batchLoop confirm removed currentPath rest effects

/-- Lines 413-437; a `std::set<string>` is walked in ascending order. -/
def batchDelete (confirm : String → Int) (removed : String → Option Bool) (post : FS)
    (s : State) : Except Halt State :=
  if s.markedFiles ≠ ∅ then do
    let effects ← batchLoop confirm removed s.currentPath (s.markedFiles.sort (· ≤ ·)) s.effects
    pure { s with effects := effects, markedFiles := ∅,
                  files := getFiles post s.currentPath s.currentPath "" }
  else .ok s

/-- Models `isprint` in the C locale. -/
def isprint (key : Int) : Bool := decide (32 ≤ key ∧ key ≤ 126)

/-- The `while (true)` of lines 444-469, one key per turn. -/
def filterLoop (fs : FS) : List Int → State → Except Halt State
  | [], _ => .error .blocked
  | key :: rest, s =>
    if key = 27 then
      .ok { s with filterQuery := "" }
    else if key = 10 then
      .ok { s with files := getFiles fs s.currentPath s.currentPath s.filterQuery,
                   selectedIndex := 0, scrollOffset := 0 }
    else
      let s1 :=
        if key = KEY_BACKSPACE ∨ key = 127 then
          if s.filterQuery ≠ "" then
            { s with filterQuery := String.mk s.filterQuery.data.dropLast }
          else s
        else if isprint key then
          { s with filterQuery := s.filterQuery.push (Char.ofNat key.toNat) }
        else s
      filterLoop fs rest
        { s1 with files := getFiles fs s1.currentPath s1.currentPath s1.filterQuery }

/-- Lines 438-470. -/
def startFilter (keys : List Int) (fs : FS) (s : State) : Except Halt State :=
  filterLoop fs keys { s with filterQuery := "" }

/-- The handler that the key of the action selects. -/
def handle (maxItems : Int) (a : Action) (s : State) : Except Halt State :=
  match a with
  | .moveUp => .ok (moveUp s)
  | .moveDown => .ok (moveDown maxItems s)
  | .enter fs => enter fs s
  | .leave parentPath fs => .ok (leave parentPath fs s)
  | .jumpBottom => .ok (jumpBottom maxItems s)
  | .gThen d => gThen d s
  | .newFile name fs _ post => .ok (newFile name fs post s)
  | .newDirectory name fs created post => newDirectory name fs created post s
  | .rename newName fs thrown post => do
    let r ← renameFileOrDirectory newName fs thrown post s
    let _ ← previewTarget r.2.files r.2.selectedIndex
    pure r.2
  | .delete confirm removed post => delete confirm removed post s
  | .toggleMark => toggleMark s
  | .batchDelete confirm removed post => batchDelete confirm removed post s
  | .startFilter keys fs => startFilter keys fs s
  | .quit => .error .exited
  | .other => .ok s

/-- Lines 479-480. -/
def clamp (s : State) : State :=
  let s1 :=
    if s.selectedIndex ≥ (s.files.length : Int) then
      { s with selectedIndex := (s.files.length : Int) - 1 }
    else s
  if s1.selectedIndex < 0 then { s1 with selectedIndex := 0 } else s1

/-- One iteration of the `while` of `main`: the handler, the clamp of lines 479-480 and the read
of line 484. `maxItems` is `height - 2` of the left panel. -/
def step (maxItems : Int) (a : Action) (s : State) : Except Halt State := do
  let s1 ← handle maxItems a s
  let s2 := clamp s1
  let _ ← previewTarget s2.files s2.selectedIndex
  pure s2

/-- A sequence of iterations. -/
def run (maxItems : Int) : List Action → State → Except Halt State
  | [], s => .ok s
  | a :: rest, s =>
    match step maxItems a s with
    | .ok s1 => run maxItems rest s1
    | .error e => .error e

/-- Lines 210-232: the first listing and the first preview, whose read of `files[selectedIndex]`
has no `files.empty()` test. `home` is the initial `currentPath`. -/
def startup (fs : FS) (home : String) : Except Halt State := do
  let files := getFiles fs home home ""
  let _ ← index files 0
  pure { currentPath := home, files := files, selectedIndex := 0, scrollOffset := 0,
         markedFiles := ∅, filterQuery := "", effects := [] }

/-- A state at the top of a listing, for concrete runs. -/
def atTop (files : List String) : State :=
  { currentPath := "/home/u", files := files, selectedIndex := 0, scrollOffset := 0,
    markedFiles := ∅, filterQuery := "", effects := [] }

/-- The spec's wording of "hidden": the name starts with a dot. -/
def StartsWithDot (name : String) : Prop := ∃ rest : List Char, name.data = '.' :: rest

/-- The spec's wording of the filter: the query is empty or occurs in the name as a contiguous
run of characters. -/
def Matches (q name : String) : Prop := q = "" ∨ q.data <:+: name.data

instance (q name : String) : Decidable (Matches q name) := by
  unfold Matches; infer_instance

/-- The spec's range condition on the selection: `0 ≤ selectedIndex < max(1, len(listing))`. -/
def SelectionInRange (s : State) : Prop :=
  0 ≤ s.selectedIndex ∧ s.selectedIndex < max 1 (s.files.length : Int)

/-- The spec's window condition: `scrollOffset ≤ selectedIndex < scrollOffset + H`. -/
def InWindow (H : Int) (s : State) : Prop :=
  s.scrollOffset ≤ s.selectedIndex ∧ s.selectedIndex < s.scrollOffset + H

/-- The spec's three conditions on the navigation state. -/
def NavInvariant (H : Int) (s : State) : Prop :=
  SelectionInRange s ∧ 0 ≤ s.scrollOffset ∧ InWindow H s

/-- The spec's safe `JumpBottom`: the last entry is selected and the scroll offset is computed
from that selection. -/
def jumpBottomSafe (H : Int) (s : State) : State :=
  let selectedIndex : Int := (s.files.length : Int) - 1
  { s with selectedIndex := selectedIndex, scrollOffset := max 0 (selectedIndex - H + 1) }

/-- The four keys of the navigation claims: `MoveUp`, `MoveDown`, `JumpTop` (the key `g` twice)
and `JumpBottom`. -/
def isMove : Action → Bool
  | .moveUp => true
  | .moveDown => true
  | .jumpBottom => true
  | .gThen d => decide (d = 103)
  | _ => false

/-- The comparator as a relation. -/
def Before (fs : FS) (cp : String) (a b : String) : Prop := less fs cp a b = some true

/-! ## Theorems: the listing -/

theorem find_isSome_iff (s q : List Char) : (find s q).isSome = true ↔ q <:+: s := by
  induction s with
  | nil =>
    cases q with
    | nil => simp [find]
    | cons a q => simp [find, List.isPrefixOf]
  | cons c t ih =>
    unfold find
    by_cases h : q.isPrefixOf (c :: t) = true
    · rw [if_pos h]
      simpa using (List.isPrefixOf_iff_prefix.mp h).isInfix
    · rw [if_neg h, List.infix_cons_iff, ← ih]
      have h2 : ¬ q <+: c :: t := fun hp => h (List.isPrefixOf_iff_prefix.mpr hp)
      simp [h2]

theorem keeps_iff (q name : String) : keeps q name = true ↔ Matches q name := by
  have hq : q = "" ↔ q.data = [] := ⟨fun h => by rw [h], fun h => String.ext h⟩
  unfold keeps Matches
  rw [hq, ← find_isSome_iff]
  cases hd : q.data <;> cases hf : find name.data (_ : List Char) <;> simp_all

theorem isHidden_iff (a : String) : isHidden a = true ↔ StartsWithDot a := by
  unfold isHidden StartsWithDot
  cases h : a.data with
  | nil => simp
  | cons c t => simp

theorem less_some (fs : FS) (cp a b : String) {da db : Bool}
    (ha : fs.isDirectory (cp ++ "/" ++ a) = some da)
    (hb : fs.isDirectory (cp ++ "/" ++ b) = some db) :
    less fs cp a b = some (if da != db then decide (da > db)
      else if isHidden a != isHidden b then decide (isHidden a > isHidden b)
      else decide (a.data < b.data)) := by
  simp only [less, ha, hb]

theorem less_eq_none_iff (fs : FS) (cp a b : String) :
    less fs cp a b = none ↔
      fs.isDirectory (cp ++ "/" ++ a) = none ∨ fs.isDirectory (cp ++ "/" ++ b) = none := by
  unfold less
  simp only []
  cases fs.isDirectory (cp ++ "/" ++ a) <;> cases fs.isDirectory (cp ++ "/" ++ b) <;> simp

theorem less_iff (fs : FS) (cp a b : String) :
    less fs cp a b = some true ↔
      ∃ da db, fs.isDirectory (cp ++ "/" ++ a) = some da ∧
        fs.isDirectory (cp ++ "/" ++ b) = some db ∧
        ((da = true ∧ db = false) ∨
          (da = db ∧
            ((isHidden a = true ∧ isHidden b = false) ∨ (isHidden a = isHidden b ∧ a < b)))) := by
  cases ha : fs.isDirectory (cp ++ "/" ++ a) with
  | none =>
    have : less fs cp a b = none := (less_eq_none_iff fs cp a b).mpr (Or.inl ha)
    simp [this]
  | some da =>
    cases hb : fs.isDirectory (cp ++ "/" ++ b) with
    | none =>
      have : less fs cp a b = none := (less_eq_none_iff fs cp a b).mpr (Or.inr hb)
      simp [this]
    | some db =>
      rw [less_some fs cp a b ha hb]
      cases da <;> cases db <;> cases isHidden a <;> cases isHidden b <;>
        simp [String.lt_iff_toList_lt]

theorem less_irrefl (fs : FS) (cp a : String) : less fs cp a a ≠ some true := by
  intro h
  rw [less_iff] at h
  obtain ⟨da, db, ha, hb, h⟩ := h
  have hd : da = db := Option.some.inj (ha.symm.trans hb)
  rcases h with ⟨h1, h2⟩ | ⟨_, ⟨h1, h2⟩ | ⟨_, h⟩⟩
  · rw [hd, h2] at h1; cases h1
  · rw [h1] at h2; cases h2
  · exact absurd h (lt_irrefl a)

theorem less_trans (fs : FS) (cp : String) {a b c : String}
    (hab : less fs cp a b = some true) (hbc : less fs cp b c = some true) :
    less fs cp a c = some true := by
  rw [less_iff] at *
  obtain ⟨da, db, ha, hb, h⟩ := hab
  obtain ⟨db2, dc, hb2, hc, k⟩ := hbc
  have hd : db2 = db := Option.some.inj (hb2.symm.trans hb)
  subst hd
  refine ⟨da, dc, ha, hc, ?_⟩
  rcases h with ⟨h1, h2⟩ | ⟨h1, ⟨h2, h3⟩ | ⟨h2, h3⟩⟩ <;>
    rcases k with ⟨k1, k2⟩ | ⟨k1, ⟨k2, k3⟩ | ⟨k2, k3⟩⟩ <;>
    simp_all [-String.lt_iff_toList_lt]
  exact lt_trans h3 k3

theorem less_total (fs : FS) (cp : String) {a b : String} {da db : Bool}
    (ha : fs.isDirectory (cp ++ "/" ++ a) = some da)
    (hb : fs.isDirectory (cp ++ "/" ++ b) = some db) (h : a ≠ b) :
    less fs cp a b = some true ∨ less fs cp b a = some true := by
  rw [less_iff, less_iff]
  simp only [ha, hb, Option.some.injEq, exists_and_left, exists_eq_left']
  rcases lt_or_gt_of_ne h with h | h <;>
  cases da <;> cases db <;>
    cases isHidden a <;> cases isHidden b <;> simp [-String.lt_iff_toList_lt, h]

theorem less_asymm (fs : FS) (cp : String) {a b : String}
    (hab : less fs cp a b = some true) : less fs cp b a ≠ some true :=
  fun h => less_irrefl fs cp a (less_trans fs cp hab h)

/-- A comparison that answers "not before" on two different names means "after". -/
theorem less_of_not_less (fs : FS) (cp : String) {a b : String}
    (h : less fs cp a b = some false) (hne : a ≠ b) : less fs cp b a = some true := by
  cases ha : fs.isDirectory (cp ++ "/" ++ a) with
  | none =>
    have := (less_eq_none_iff fs cp a b).mpr (Or.inl ha)
    rw [this] at h; cases h
  | some da =>
    cases hb : fs.isDirectory (cp ++ "/" ++ b) with
    | none =>
      have := (less_eq_none_iff fs cp a b).mpr (Or.inr hb)
      rw [this] at h; cases h
    | some db =>
      rcases less_total fs cp ha hb hne with h1 | h1
      · rw [h1] at h; cases h
      · exact h1

theorem insertSorted_spec (fs : FS) (cp x : String) :
    ∀ (l r : List String), insertSorted (less fs cp) x l = some r →
      r.Perm (x :: l) ∧
      (x ∉ l → l.Pairwise (Before fs cp) → r.Pairwise (Before fs cp)) := by
  intro l
  induction l with
  | nil =>
    intro r h
    have hr : r = [x] := by simpa [insertSorted] using h.symm
    subst hr
    exact ⟨List.Perm.refl _, fun _ _ => List.pairwise_singleton _ _⟩
  | cons y ys ih =>
    intro r h
    unfold insertSorted at h
    cases hc : less fs cp x y with
    | none => rw [hc] at h; cases h
    | some c =>
      cases c with
      | true =>
        rw [hc] at h
        have hr : r = x :: y :: ys := (Option.some.inj h).symm
        subst hr
        refine ⟨List.Perm.refl _, fun _ hl => List.pairwise_cons.mpr ⟨?_, hl⟩⟩
        intro z hz
        rcases List.mem_cons.mp hz with rfl | hz
        · exact hc
        · exact less_trans fs cp hc ((List.pairwise_cons.mp hl).1 z hz)
      | false =>
        rw [hc] at h
        cases hi : insertSorted (less fs cp) x ys with
        | none => rw [hi] at h; cases h
        | some rest =>
          rw [hi] at h
          have hr : r = y :: rest := (Option.some.inj h).symm
          subst hr
          obtain ⟨hp, hs⟩ := ih rest hi
          refine ⟨(List.Perm.cons y hp).trans (List.Perm.swap x y ys), ?_⟩
          intro hx hl
          have hy := List.pairwise_cons.mp hl
          have hne : x ≠ y := fun e => hx (by simp [e])
          refine List.pairwise_cons.mpr
            ⟨?_, hs (fun hm => hx (List.mem_cons_of_mem _ hm)) hy.2⟩
          intro z hz
          rcases List.mem_cons.mp (hp.subset hz) with rfl | hz
          · exact less_of_not_less fs cp hc hne
          · exact hy.1 z hz

theorem sort_spec (fs : FS) (cp : String) :
    ∀ (l r : List String), sort (less fs cp) l = some r →
      r.Perm l ∧ (l.Nodup → r.Pairwise (Before fs cp)) := by
  intro l
  induction l with
  | nil =>
    intro r h
    have hr : r = [] := by simpa [sort] using h.symm
    subst hr
    exact ⟨List.Perm.refl _, fun _ => List.Pairwise.nil⟩
  | cons x xs ih =>
    intro r h
    unfold sort at h
    cases hs : sort (less fs cp) xs with
    | none => rw [hs] at h; cases h
    | some sorted =>
      rw [hs] at h
      obtain ⟨hp, hw⟩ := ih sorted hs
      obtain ⟨hp2, hw2⟩ := insertSorted_spec fs cp x sorted r h
      refine ⟨hp2.trans (List.Perm.cons x hp), ?_⟩
      intro hnd
      have hn := List.nodup_cons.mp hnd
      exact hw2 (fun hm => hn.1 (hp.subset hm)) (hw hn.2)

theorem insertSorted_isSome (fs : FS) (cp x : String)
    (hx : fs.isDirectory (cp ++ "/" ++ x) ≠ none) :
    ∀ l : List String, (∀ y ∈ l, fs.isDirectory (cp ++ "/" ++ y) ≠ none) →
      ∃ r, insertSorted (less fs cp) x l = some r := by
  intro l
  induction l with
  | nil => intro _; exact ⟨[x], rfl⟩
  | cons y ys ih =>
    intro hl
    unfold insertSorted
    cases hc : less fs cp x y with
    | none =>
      rcases (less_eq_none_iff fs cp x y).mp hc with h | h
      · exact absurd h hx
      · exact absurd h (hl y (List.mem_cons_self _ _))
    | some c =>
      cases c with
      | true => exact ⟨_, rfl⟩
      | false =>
        obtain ⟨rest, hr⟩ := ih (fun z hz => hl z (List.mem_cons_of_mem _ hz))
        exact ⟨y :: rest, by simp only [hr]⟩

theorem sort_isSome (fs : FS) (cp : String) :
    ∀ l : List String, (∀ y ∈ l, fs.isDirectory (cp ++ "/" ++ y) ≠ none) →
      ∃ r, sort (less fs cp) l = some r := by
  intro l
  induction l with
  | nil => intro _; exact ⟨[], rfl⟩
  | cons x xs ih =>
    intro hl
    obtain ⟨sorted, hs⟩ := ih (fun z hz => hl z (List.mem_cons_of_mem _ hz))
    have hp := (sort_spec fs cp xs sorted hs).1
    obtain ⟨r, hr⟩ := insertSorted_isSome fs cp x (hl x (List.mem_cons_self _ _)) sorted
      (fun z hz => hl z (List.mem_cons_of_mem _ (hp.subset hz)))
    refine ⟨r, ?_⟩
    unfold sort
    simp only [hs, hr]

/-- The sort throws exactly when it has something to compare and `is_directory` throws for one
of the names: every name of a list of two or more takes part in a comparison. -/
theorem sort_eq_none_iff (fs : FS) (cp : String) (l : List String) :
    sort (less fs cp) l = none ↔
      2 ≤ l.length ∧ ∃ x ∈ l, fs.isDirectory (cp ++ "/" ++ x) = none := by
  constructor
  · intro h
    constructor
    · match l, h with
      | [], h => cases h
      | [x], h => simp [sort, insertSorted] at h
      | _ :: _ :: _, _ => simp
    · by_contra hno
      obtain ⟨r, hr⟩ := sort_isSome fs cp l (fun y hy hn => hno ⟨y, hy, hn⟩)
      rw [hr] at h; cases h
  · induction l with
    | nil => intro h; simp at h
    | cons x xs ih =>
      intro ⟨hlen, z, hz, hzn⟩
      unfold sort
      cases hs : sort (less fs cp) xs with
      | none => rfl
      | some sorted =>
        have hp := (sort_spec fs cp xs sorted hs).1
        have hxs : xs ≠ [] := by
          intro e; rw [e] at hlen; simp at hlen
        cases sorted with
        | nil => exact absurd (hp.symm.eq_nil) hxs
        | cons y ys =>
          have hc : less fs cp x y = none := by
            rw [less_eq_none_iff]
            rcases List.mem_cons.mp hz with rfl | hz
            · exact Or.inl hzn
            · right
              by_cases h2 : 2 ≤ xs.length
              · have := ih ⟨h2, z, hz, hzn⟩
                rw [hs] at this; cases this
              · have h1 : xs.length = 1 := by
                  have : xs.length ≠ 0 := fun e => hxs (List.length_eq_zero.mp e)
                  omega
                obtain ⟨w, hw⟩ := List.length_eq_one.mp h1
                subst hw
                have hz2 : z = w := by simpa using hz
                have hy : y = w := by
                  have := hp.subset (List.mem_cons_self y ys)
                  simpa using this
                rw [hy, ← hz2]; exact hzn
          simp only [insertSorted, hc]

theorem sort_perm (fs : FS) (cp : String) (l r : List String)
    (h : sort (less fs cp) l = some r) : r.Perm l :=
  (sort_spec fs cp l r h).1

/-- Two arrangements of the same names that are both ordered by the comparator are equal: the
result of sorting does not depend on the sorting algorithm. -/
theorem sort_unique (fs : FS) (cp : String) {l₁ l₂ : List String} (hp : l₁.Perm l₂)
    (h₁ : l₁.Pairwise (Before fs cp)) (h₂ : l₂.Pairwise (Before fs cp)) : l₁ = l₂ := by
  haveI : IsAntisymm String (Before fs cp) :=
    ⟨fun a b hab hba => absurd hba (less_asymm fs cp hab)⟩
  exact List.eq_of_perm_of_sorted hp h₁ h₂

/-- A list ordered by `R` in which nothing outside `p` comes before something inside `p` is its
`p` part followed by its non-`p` part. -/
theorem split_of_pairwise {R : String → String → Prop} (p : String → Bool) (l : List String)
    (hl : l.Pairwise R) (hR : ∀ a ∈ l, ∀ b ∈ l, R a b → p b = true → p a = true) :
    l = l.filter p ++ l.filter (fun x => !p x) := by
  induction l with
  | nil => simp
  | cons x xs ih =>
    have hx := List.pairwise_cons.mp hl
    have hR2 : ∀ a ∈ xs, ∀ b ∈ xs, R a b → p b = true → p a = true := fun a ha b hb =>
      hR a (List.mem_cons_of_mem _ ha) b (List.mem_cons_of_mem _ hb)
    cases hp : p x with
    | true =>
      simp only [List.filter_cons, hp, Bool.not_true, if_true, List.cons_append]
      simp only [Bool.false_eq_true, if_false]
      exact congrArg _ (ih hx.2 hR2)
    | false =>
      have hall : ∀ y ∈ xs, p y = false := by
        intro y hy
        cases hpy : p y with
        | false => rfl
        | true =>
          have := hR x (List.mem_cons_self _ _) y (List.mem_cons_of_mem _ hy) (hx.1 y hy) hpy
          rw [hp] at this; cases this
      have h1 : xs.filter p = [] := by
        rw [List.filter_eq_nil_iff]; intro y hy; simp [hall y hy]
      have h2 : xs.filter (fun x => !p x) = xs := by
        rw [List.filter_eq_self]; intro y hy; simp [hall y hy]
      simp [List.filter_cons, hp, h1, h2]

/-- Inside one group (same kind, same hiddenness) the comparator is the string order. -/
theorem group_ascending (fs : FS) (cp : String) (bd bh : Bool) (g : List String)
    (hg : g.Pairwise (Before fs cp))
    (hm : ∀ x ∈ g, fs.isDirectory (cp ++ "/" ++ x) = some bd ∧ isHidden x = bh) :
    g.Pairwise (· < ·) := by
  refine List.Pairwise.imp_of_mem ?_ hg
  intro a b ha hb hab
  obtain ⟨da, db, e1, e2, h⟩ := (less_iff fs cp a b).mp hab
  have hda : da = bd := Option.some.inj (e1.symm.trans (hm a ha).1)
  have hdb : db = bd := Option.some.inj (e2.symm.trans (hm b hb).1)
  rw [hda, hdb, (hm a ha).2, (hm b hb).2] at h
  rcases h with ⟨h1, h2⟩ | ⟨_, ⟨h1, h2⟩ | ⟨_, h⟩⟩
  · rw [h1] at h2; cases h2
  · rw [h1] at h2; cases h2
  · exact h

theorem getFiles_perm (fs : FS) (cp dir q : String) :
    (getFiles fs cp dir q).Perm ((fs.readDir dir).names.filter (keeps q)) := by
  unfold getFiles
  simp only []
  split
  · cases hs : sort (less fs cp) ((fs.readDir dir).names.filter (keeps q)) with
    | none => exact (fs.abortedSort cp _).property
    | some sorted => exact sort_perm fs cp _ _ hs
  · exact List.Perm.refl _

theorem getFiles_pairwise (fs : FS) (cp dir q : String) (hok : (fs.readDir dir).ok = true)
    (hnd : (fs.readDir dir).names.Nodup)
    (hstat : ∀ x ∈ (fs.readDir dir).names, Matches q x →
      fs.isDirectory (cp ++ "/" ++ x) ≠ none) :
    (getFiles fs cp dir q).Pairwise (Before fs cp) := by
  obtain ⟨r, hr⟩ := sort_isSome fs cp ((fs.readDir dir).names.filter (keeps q))
    (fun y hy => hstat y (List.mem_filter.mp hy).1 ((keeps_iff q y).mp (List.mem_filter.mp hy).2))
  have : getFiles fs cp dir q = r := by simp [getFiles, hok, hr]
  rw [this]
  exact (sort_spec fs cp _ r hr).2 (hnd.filter _)

/-- C1, amended. For a directory whose walk succeeds, whose children have pairwise distinct
names and where `is_directory` answers (does not throw) for every child that passes the filter,
the listing `getFiles(dir, q)` (called, as everywhere in the program, with `dir` the current
path) is the concatenation of four groups: hidden directories, other directories, hidden files,
other files, where hidden means that the name starts with a dot; inside each group the names are
strictly ascending. With the children `.git` (dir), `docs` (dir), `.env` (file), `main.go`
(file), enumerated in any order and no filter, the listing is `.git, docs, .env, main.go`. -/
theorem getFiles_grouped_sorted (fs : FS) (dir q : String)
    (hok : (fs.readDir dir).ok = true) (hnd : (fs.readDir dir).names.Nodup)
    (hstat : ∀ x ∈ (fs.readDir dir).names, Matches q x →
      fs.isDirectory (dir ++ "/" ++ x) ≠ none) :
    (∃ hd d hf f : List String,
      getFiles fs dir dir q = hd ++ d ++ hf ++ f ∧
      (∀ x ∈ hd, fs.isDirectory (dir ++ "/" ++ x) = some true ∧ StartsWithDot x) ∧
      (∀ x ∈ d, fs.isDirectory (dir ++ "/" ++ x) = some true ∧ ¬ StartsWithDot x) ∧
      (∀ x ∈ hf, fs.isDirectory (dir ++ "/" ++ x) = some false ∧ StartsWithDot x) ∧
      (∀ x ∈ f, fs.isDirectory (dir ++ "/" ++ x) = some false ∧ ¬ StartsWithDot x) ∧
      hd.Pairwise (· < ·) ∧ d.Pairwise (· < ·) ∧ hf.Pairwise (· < ·) ∧ f.Pairwise (· < ·)) ∧
    (q = "" → (fs.readDir dir).names.Perm [".git", "docs", ".env", "main.go"] →
      fs.isDirectory (dir ++ "/" ++ ".git") = some true →
      fs.isDirectory (dir ++ "/" ++ "docs") = some true →
      fs.isDirectory (dir ++ "/" ++ ".env") = some false →
      fs.isDirectory (dir ++ "/" ++ "main.go") = some false →
      getFiles fs dir dir q = [".git", "docs", ".env", "main.go"]) := by
  have hL := getFiles_pairwise fs dir dir q hok hnd hstat
  have hmemL : ∀ x ∈ getFiles fs dir dir q, fs.isDirectory (dir ++ "/" ++ x) ≠ none := by
    intro x hx
    have h := List.mem_filter.mp ((getFiles_perm fs dir dir q).subset hx)
    exact hstat x h.1 ((keeps_iff q x).mp h.2)
  constructor
  · generalize getFiles fs dir dir q = L at hL hmemL
    let isD : String → Bool := fun x => fs.isDirectory (dir ++ "/" ++ x) == some true
    have isD_true : ∀ x, isD x = true → fs.isDirectory (dir ++ "/" ++ x) = some true := by
      intro x hx; simpa [isD] using hx
    have isD_false : ∀ x ∈ L, isD x = false → fs.isDirectory (dir ++ "/" ++ x) = some false := by
      intro x hx h
      cases hv : fs.isDirectory (dir ++ "/" ++ x) with
      | none => exact absurd hv (hmemL x hx)
      | some b =>
        cases b with
        | false => rfl
        | true => simp [isD, hv] at h
    have s1 : L = L.filter isD ++ L.filter (fun x => !isD x) := by
      refine split_of_pairwise isD L hL ?_
      intro a _ b _ hab hb
      obtain ⟨da, db, e1, e2, h⟩ := (less_iff fs dir a b).mp hab
      have hdb : db = true := Option.some.inj (e2.symm.trans (isD_true b hb))
      have hda : da = true := by
        rcases h with ⟨h1, _⟩ | ⟨h1, _⟩
        · exact h1
        · exact h1.trans hdb
      simp [isD, e1, hda]
    have hD : (L.filter isD).Pairwise (Before fs dir) := hL.sublist (List.filter_sublist _)
    have hF : (L.filter (fun x => !isD x)).Pairwise (Before fs dir) :=
      hL.sublist (List.filter_sublist _)
    have hsplit : ∀ (g : List String) (bd : Bool), g.Pairwise (Before fs dir) →
        (∀ x ∈ g, fs.isDirectory (dir ++ "/" ++ x) = some bd) →
        g = g.filter isHidden ++ g.filter (fun x => !isHidden x) := by
      intro g bd hg hm
      refine split_of_pairwise isHidden g hg ?_
      intro a ha b hb hab hhb
      obtain ⟨da, db, e1, e2, h⟩ := (less_iff fs dir a b).mp hab
      have hda : da = bd := Option.some.inj (e1.symm.trans (hm a ha))
      have hdb : db = bd := Option.some.inj (e2.symm.trans (hm b hb))
      rw [hda, hdb] at h
      rcases h with ⟨h1, h2⟩ | ⟨_, ⟨h1, _⟩ | ⟨h1, _⟩⟩
      · rw [h1] at h2; cases h2
      · exact h1
      · exact h1.trans hhb
    have mD : ∀ x ∈ L.filter isD, fs.isDirectory (dir ++ "/" ++ x) = some true :=
      fun x hx => isD_true x (List.mem_filter.mp hx).2
    have mF : ∀ x ∈ L.filter (fun x => !isD x),
        fs.isDirectory (dir ++ "/" ++ x) = some false := fun x hx => by
      have h := List.mem_filter.mp hx
      exact isD_false x h.1 (by simpa using h.2)
    have s2 := hsplit _ true hD mD
    have s3 := hsplit _ false hF mF
    have hid : ∀ x, isHidden x = false ↔ ¬ StartsWithDot x := fun x => by
      rw [← isHidden_iff]; simp
    refine ⟨(L.filter isD).filter isHidden, (L.filter isD).filter (fun x => !isHidden x),
      (L.filter (fun x => !isD x)).filter isHidden,
      (L.filter (fun x => !isD x)).filter (fun x => !isHidden x), ?_, ?_, ?_, ?_, ?_, ?_, ?_, ?_, ?_⟩
    · rw [List.append_assoc, ← s2, ← s3]; exact s1
    · intro x hx
      have h := List.mem_filter.mp hx
      exact ⟨mD x h.1, (isHidden_iff x).mp h.2⟩
    · intro x hx
      have h := List.mem_filter.mp hx
      exact ⟨mD x h.1, (hid x).mp (by simpa using h.2)⟩
    · intro x hx
      have h := List.mem_filter.mp hx
      exact ⟨mF x h.1, (isHidden_iff x).mp h.2⟩
    · intro x hx
      have h := List.mem_filter.mp hx
      exact ⟨mF x h.1, (hid x).mp (by simpa using h.2)⟩
    · refine group_ascending fs dir true true _ (hD.sublist (List.filter_sublist _)) ?_
      intro x hx
      have h := List.mem_filter.mp hx
      exact ⟨mD x h.1, h.2⟩
    · refine group_ascending fs dir true false _ (hD.sublist (List.filter_sublist _)) ?_
      intro x hx
      have h := List.mem_filter.mp hx
      exact ⟨mD x h.1, by simpa using h.2⟩
    · refine group_ascending fs dir false true _ (hF.sublist (List.filter_sublist _)) ?_
      intro x hx
      have h := List.mem_filter.mp hx
      exact ⟨mF x h.1, h.2⟩
    · refine group_ascending fs dir false false _ (hF.sublist (List.filter_sublist _)) ?_
      intro x hx
      have h := List.mem_filter.mp hx
      exact ⟨mF x h.1, by simpa using h.2⟩
  · intro hq hperm h1 h2 h3 h4
    subst hq
    have hall : (fs.readDir dir).names.filter (keeps "") = (fs.readDir dir).names := by
      rw [List.filter_eq_self]; intro x _; rfl
    have hp : (getFiles fs dir dir "").Perm [".git", "docs", ".env", "main.go"] := by
      have := getFiles_perm fs dir dir ""
      rw [hall] at this
      exact this.trans hperm
    refine sort_unique fs dir hp hL ?_
    have e1 : isHidden ".git" = true := by decide
    have e2 : isHidden "docs" = false := by decide
    have e3 : isHidden ".env" = true := by decide
    have e4 : isHidden "main.go" = false := by decide
    simp [Before, less_iff, h1, h2, h3, h4, e1, e2, e3, e4]

/-- Witness of C1 on a concrete directory, enumerated in reverse listing order. -/
theorem getFiles_grouped_sorted_witness :
    getFiles (flatFS [("main.go", false), (".env", false), ("docs", true), (".git", true)])
      "/home/u" "/home/u" "" = [".git", "docs", ".env", "main.go"] :=
  (getFiles_grouped_sorted
    (flatFS [("main.go", false), (".env", false), ("docs", true), (".git", true)])
    "/home/u" "" (by decide) (by decide) (fun _ _ _ => by simp [flatFS])).2 rfl
    (List.reverse_perm [".git", "docs", ".env", "main.go"]) (by decide) (by decide) (by decide)
    (by decide)

/-- C1 as stated fails. In a directory that can be read but not searched, `is_directory`
throws inside the comparator, the `catch` of `getFiles` ends the sort, and the listing is the
enumeration order. The children `c`, `b`, `a`, walked in that order, are listed `c, b, a`,
which is not four ascending groups whatever the kinds of the three children are; and the
children `main.go`, `.env`, `docs`, `.git`, walked in that order, are listed in that order and
not as `.git, docs, .env, main.go`. -/
theorem getFiles_unsorted_when_stat_throws :
    ((unsearchableFS ["c", "b", "a"]).readDir "/home/u").ok = true ∧
    ((unsearchableFS ["c", "b", "a"]).readDir "/home/u").names.Nodup ∧
    getFiles (unsearchableFS ["c", "b", "a"]) "/home/u" "/home/u" "" = ["c", "b", "a"] ∧
    (¬ ∃ (kind : String → Bool) (hd d hf f : List String),
      ["c", "b", "a"] = hd ++ d ++ hf ++ f ∧
      (∀ x ∈ hd, kind x = true ∧ StartsWithDot x) ∧
      (∀ x ∈ d, kind x = true ∧ ¬ StartsWithDot x) ∧
      (∀ x ∈ hf, kind x = false ∧ StartsWithDot x) ∧
      (∀ x ∈ f, kind x = false ∧ ¬ StartsWithDot x) ∧
      hd.Pairwise (· < ·) ∧ d.Pairwise (· < ·) ∧ hf.Pairwise (· < ·) ∧ f.Pairwise (· < ·)) ∧
    getFiles (unsearchableFS ["main.go", ".env", "docs", ".git"]) "/home/u" "/home/u" "" =
      ["main.go", ".env", "docs", ".git"] ∧
    getFiles (unsearchableFS ["main.go", ".env", "docs", ".git"]) "/home/u" "/home/u" "" ≠
      [".git", "docs", ".env", "main.go"] := by
  refine ⟨rfl, by decide, rfl, ?_, rfl, by decide⟩
  rintro ⟨kind, hd, d, hf, f, heq, hhd, _, hhf, _, _, pd, _, pf⟩
  have nodot : ∀ x ∈ ["c", "b", "a"], ¬ StartsWithDot x := by
    intro x hx
    rw [← isHidden_iff]
    simp only [List.mem_cons, List.mem_singleton, List.not_mem_nil, or_false] at hx
    rcases hx with rfl | rfl | rfl <;> decide
  have hd0 : hd = [] := by
    rw [List.eq_nil_iff_forall_not_mem]
    intro x hx
    exact nodot x (by rw [heq]; simp [hx]) (hhd x hx).2
  have hf0 : hf = [] := by
    rw [List.eq_nil_iff_forall_not_mem]
    intro x hx
    exact nodot x (by rw [heq]; simp [hx]) (hhf x hx).2
  subst hd0 hf0
  simp only [List.nil_append, List.append_nil] at heq
  have cb : ¬ ("c" : String) < "b" := by simp [String.lt_iff_toList_lt]; decide
  have ba : ¬ ("b" : String) < "a" := by simp [String.lt_iff_toList_lt]; decide
  cases d with
  | nil =>
    simp only [List.nil_append] at heq
    subst heq
    exact cb ((List.pairwise_cons.mp pf).1 "b" (by simp))
  | cons x d1 =>
    cases d1 with
    | nil =>
      simp only [List.cons_append, List.nil_append, List.cons.injEq] at heq
      have hfe : f = ["b", "a"] := heq.2.symm
      subst hfe
      exact ba ((List.pairwise_cons.mp pf).1 "a" (by simp))
    | cons y d2 =>
      simp only [List.cons_append, List.cons.injEq] at heq
      obtain ⟨hx, hy, _⟩ := heq
      subst hx hy
      exact cb ((List.pairwise_cons.mp pd).1 "b" (by simp))

/-- C2. For a directory whose walk succeeds (so that the names it yields are all the children)
and whose children have pairwise distinct names, a name is in `getFiles(dir, q)` exactly when it
is a child of `dir` and `q` is empty or occurs in the name as a contiguous run of characters;
the listing is a permutation of the matching children, so every such name occurs exactly
once. -/
theorem getFiles_perm_matching (fs : FS) (currentPath dir q : String)
    (_hok : (fs.readDir dir).ok = true) (hnd : (fs.readDir dir).names.Nodup) :
    (∀ name, name ∈ getFiles fs currentPath dir q ↔
      name ∈ (fs.readDir dir).names ∧ Matches q name) ∧
    (getFiles fs currentPath dir q).Perm
      ((fs.readDir dir).names.filter (fun name => decide (Matches q name))) ∧
    (∀ name, name ∈ (fs.readDir dir).names → Matches q name →
      (getFiles fs currentPath dir q).count name = 1) := by
  have hp := getFiles_perm fs currentPath dir q
  have hmem : ∀ name, name ∈ getFiles fs currentPath dir q ↔
      name ∈ (fs.readDir dir).names ∧ Matches q name := by
    intro name
    rw [hp.mem_iff, List.mem_filter, keeps_iff]
  have hfe : (fs.readDir dir).names.filter (keeps q) =
      (fs.readDir dir).names.filter (fun name => decide (Matches q name)) := by
    apply List.filter_congr
    intro x _
    rw [Bool.eq_iff_iff, keeps_iff]; simp
  refine ⟨hmem, hfe ▸ hp, ?_⟩
  intro name h1 h2
  have hnd2 : (getFiles fs currentPath dir q).Nodup := hp.nodup_iff.mpr (hnd.filter _)
  exact List.count_eq_one_of_mem hnd2 ((hmem name).mpr ⟨h1, h2⟩)

/-- Witness of C2: the query `o` on a directory with four children. -/
theorem getFiles_perm_matching_witness :
    (∀ name, name ∈ getFiles (flatFS [("main.go", false), (".env", false), ("docs", true),
        (".git", true)]) "/home/u" "/home/u" "o" ↔
      name ∈ ["main.go", ".env", "docs", ".git"] ∧ Matches "o" name) ∧
    (getFiles (flatFS [("main.go", false), (".env", false), ("docs", true), (".git", true)])
        "/home/u" "/home/u" "o").Perm
      (["main.go", ".env", "docs", ".git"].filter (fun name => decide (Matches "o" name))) ∧
    (∀ name, name ∈ ["main.go", ".env", "docs", ".git"] → Matches "o" name →
      (getFiles (flatFS [("main.go", false), (".env", false), ("docs", true), (".git", true)])
        "/home/u" "/home/u" "o").count name = 1) :=
  getFiles_perm_matching
    (flatFS [("main.go", false), (".env", false), ("docs", true), (".git", true)])
    "/home/u" "/home/u" "o" (by decide) (by decide)

/-! ## Theorems: the loop -/

theorem index_eq_ok {files : List String} {i : Int} {x : String} (h0 : 0 ≤ i)
    (hx : files[i.toNat]? = some x) : index files i = .ok x := by
  simp [index, h0, hx]

theorem index_in_range {files : List String} {i : Int} (h0 : 0 ≤ i)
    (h1 : i < (files.length : Int)) : ∃ x, files[i.toNat]? = some x ∧ index files i = .ok x := by
  have hlt : i.toNat < files.length := by omega
  exact ⟨files[i.toNat], List.getElem?_eq_getElem hlt,
    index_eq_ok h0 (List.getElem?_eq_getElem hlt)⟩

theorem previewTarget_in_range {files : List String} {i : Int} (h0 : 0 ≤ i)
    (h1 : i < max 1 (files.length : Int)) : ∃ x, previewTarget files i = .ok x := by
  unfold previewTarget
  cases files with
  | nil => exact ⟨"", rfl⟩
  | cons a l =>
    have h2 : i < ((a :: l).length : Int) := by
      have : (1 : Int) ≤ ((a :: l).length : Int) := by simp
      omega
    obtain ⟨x, _, hx⟩ := index_in_range h0 h2
    exact ⟨x, by simpa using hx⟩

theorem clamp_of_in_range {s : State} (h0 : 0 ≤ s.selectedIndex)
    (h1 : s.selectedIndex < max 1 (s.files.length : Int)) : clamp s = s := by
  unfold clamp
  have h3 : ¬ s.selectedIndex ≥ (s.files.length : Int) ∨ s.files.length = 0 := by omega
  rcases h3 with h3 | h3
  · simp [h3, not_lt.mpr h0]
  · have h4 : s.selectedIndex = 0 := by omega
    cases s
    simp_all

theorem step_of_handle {H : Int} {a : Action} {s s1 : State} (h : handle H a s = .ok s1)
    (h0 : 0 ≤ s1.selectedIndex) (h1 : s1.selectedIndex < max 1 (s1.files.length : Int)) :
    step H a s = .ok s1 := by
  obtain ⟨x, hx⟩ := previewTarget_in_range h0 h1
  simp [step, h, clamp_of_in_range h0 h1, hx, bind, Except.bind, pure, Except.pure]

theorem moveDown_step (H : Int) (s : State) (h0 : 0 ≤ s.selectedIndex)
    (h1 : s.selectedIndex < (s.files.length : Int)) :
    step H Action.moveDown s = .ok (moveDown H s) := by
  have h : handle H Action.moveDown s = .ok (moveDown H s) := rfl
  apply step_of_handle h
  · unfold moveDown; simp only []; split_ifs <;> (try dsimp only) <;> omega
  · unfold moveDown; simp only []; split_ifs <;> (try dsimp only) <;> omega

theorem run_moveDown (H : Int) (k : Nat) : ∀ s : State, 0 ≤ s.selectedIndex →
    s.selectedIndex < (s.files.length : Int) →
    s.scrollOffset = max 0 (s.selectedIndex - H + 1) →
    run H (List.replicate k Action.moveDown) s =
      .ok { s with
        selectedIndex := min (s.selectedIndex + k) ((s.files.length : Int) - 1),
        scrollOffset := max 0 (min (s.selectedIndex + k) ((s.files.length : Int) - 1) - H + 1) } := by
  induction k with
  | zero =>
    intro s h0 h1 h2
    have e : min (s.selectedIndex + ((0 : Nat) : Int)) ((s.files.length : Int) - 1)
        = s.selectedIndex := by omega
    rw [e, ← h2]
    rfl
  | succ k ih =>
    intro s h0 h1 h2
    rw [List.replicate_succ, run, moveDown_step H s h0 h1]
    simp only []
    have hs : (moveDown H s).files = s.files := by
      unfold moveDown; simp only []; split_ifs <;> rfl
    have a0 : 0 ≤ (moveDown H s).selectedIndex := by
      unfold moveDown; simp only []; split_ifs <;> (try dsimp only) <;> omega
    have a1 : (moveDown H s).selectedIndex < ((moveDown H s).files.length : Int) := by
      rw [hs]; unfold moveDown; simp only []; split_ifs <;> (try dsimp only) <;> omega
    have a2 : (moveDown H s).scrollOffset = max 0 ((moveDown H s).selectedIndex - H + 1) := by
      unfold moveDown; simp only []; split_ifs <;> (try dsimp only) <;> omega
    rw [ih (moveDown H s) a0 a1 a2]
    have a3 : min ((moveDown H s).selectedIndex + (k : Int)) (((moveDown H s).files.length : Int) - 1)
        = min (s.selectedIndex + ((k + 1 : Nat) : Int)) ((s.files.length : Int) - 1) := by
      rw [hs]; unfold moveDown; simp only []; split_ifs <;> (try dsimp only) <;> omega
    rw [a3]
    unfold moveDown; simp only []; split_ifs <;> rfl

/-- C8. From the top of a listing of `n ≥ 1` entries, with a viewport of `H ≥ 1` rows, `k`
iterations with the key `MoveDown` end in `selectedIndex = min(k, n-1)` and
`scrollOffset = max(0, selectedIndex - H + 1)`, everything else unchanged; with `n = 5`,
`H = 3`, `k = 4` that is `selectedIndex = 4`, `scrollOffset = 2`. -/
theorem moveDown_scroll_follow (H : Int) (k : Nat) (s : State) (hn : 1 ≤ s.files.length)
    (hH : 1 ≤ H) (hsel : s.selectedIndex = 0) (hscroll : s.scrollOffset = 0) :
    run H (List.replicate k Action.moveDown) s =
      .ok { s with
        selectedIndex := min (k : Int) ((s.files.length : Int) - 1),
        scrollOffset := max 0 (min (k : Int) ((s.files.length : Int) - 1) - H + 1) } ∧
    (s.files.length = 5 → H = 3 → k = 4 →
      run H (List.replicate k Action.moveDown) s =
        .ok { s with selectedIndex := 4, scrollOffset := 2 }) := by
  have h := run_moveDown H k s (by omega) (by omega) (by omega)
  rw [hsel] at h
  simp only [zero_add] at h
  refine ⟨h, ?_⟩
  intro h5 h3 h4
  rw [h, h5, h3, h4]
  rfl

/-- Witness of C8: five entries, three rows, four times `MoveDown`. -/
theorem moveDown_scroll_follow_witness :
    run 3 (List.replicate 4 Action.moveDown) (atTop ["a", "b", "c", "d", "e"]) =
      .ok { atTop ["a", "b", "c", "d", "e"] with selectedIndex := 4, scrollOffset := 2 } :=
  (moveDown_scroll_follow 3 4 (atTop ["a", "b", "c", "d", "e"]) (by decide) (by decide) rfl
    rfl).2 rfl rfl rfl

theorem toggleMark_step (H : Int) (s : State) (x : String) (h0 : 0 ≤ s.selectedIndex)
    (hx : s.files[s.selectedIndex.toNat]? = some x) :
    step H Action.toggleMark s =
      .ok { s with markedFiles :=
        if x ∈ s.markedFiles then s.markedFiles.erase x else insert x s.markedFiles } := by
  have hne : s.files.isEmpty = false := by
    cases hf : s.files with
    | nil => rw [hf] at hx; simp at hx
    | cons a l => rfl
  have hlt : s.selectedIndex.toNat < s.files.length := by
    rcases Nat.lt_or_ge s.selectedIndex.toNat s.files.length with h | h
    · exact h
    · rw [List.getElem?_eq_none h] at hx; cases hx
  apply step_of_handle
  · show toggleMark s = _
    unfold toggleMark
    simp only [hne, index_eq_ok h0 hx, bind, Except.bind, pure, Except.pure]
    split_ifs <;> simp_all
  · exact h0
  · show s.selectedIndex < max 1 (s.files.length : Int)
    omega

/-- C7. With a non-empty listing whose selected entry is `x`, one iteration with the key
`ToggleMark` makes `x` marked exactly when it was not, leaves the marks of all other names as
they were, and a second iteration on the same selection gives back the mark set (and the whole
state) of before. -/
theorem toggleMark_flips_selected (H : Int) (s : State) (x : String) (h0 : 0 ≤ s.selectedIndex)
    (hx : s.files[s.selectedIndex.toNat]? = some x) :
    ∃ s1 s2, step H Action.toggleMark s = .ok s1 ∧ step H Action.toggleMark s1 = .ok s2 ∧
      (x ∈ s1.markedFiles ↔ x ∉ s.markedFiles) ∧
      (∀ y, y ≠ x → (y ∈ s1.markedFiles ↔ y ∈ s.markedFiles)) ∧
      s1.files = s.files ∧ s1.selectedIndex = s.selectedIndex ∧
      s2.markedFiles = s.markedFiles ∧ s2 = s := by
  have e1 := toggleMark_step H s x h0 hx
  have e2 := toggleMark_step H _ x
    (show 0 ≤ ({ s with markedFiles :=
      if x ∈ s.markedFiles then s.markedFiles.erase x else insert x s.markedFiles } :
        State).selectedIndex from h0) hx
  refine ⟨_, _, e1, e2, ?_, ?_, rfl, rfl, ?_, ?_⟩
  · by_cases hm : x ∈ s.markedFiles <;> simp [hm]
  · intro y hy
    by_cases hm : x ∈ s.markedFiles <;> simp [hm, hy]
  · by_cases hm : x ∈ s.markedFiles <;> simp [hm]
  · obtain ⟨cp, fl, sel, sc, M, fq, eff⟩ := s
    by_cases hm : x ∈ M <;> simp [hm]

/-- Witness of C7: the second of three entries is selected and the first is marked. -/
theorem toggleMark_flips_selected_witness :
    ∃ s1 s2,
      step 3 Action.toggleMark
        { atTop ["a", "b", "c"] with selectedIndex := 1, markedFiles := {"a"} } = .ok s1 ∧
      step 3 Action.toggleMark s1 = .ok s2 ∧
      ("b" ∈ s1.markedFiles ↔
        "b" ∉ ({ atTop ["a", "b", "c"] with selectedIndex := 1, markedFiles := {"a"} } :
          State).markedFiles) ∧
      (∀ y, y ≠ "b" → (y ∈ s1.markedFiles ↔
        y ∈ ({ atTop ["a", "b", "c"] with selectedIndex := 1, markedFiles := {"a"} } :
          State).markedFiles)) ∧
      s1.files = ["a", "b", "c"] ∧ s1.selectedIndex = 1 ∧
      s2.markedFiles = {"a"} ∧
      s2 = { atTop ["a", "b", "c"] with selectedIndex := 1, markedFiles := {"a"} } :=
  toggleMark_flips_selected 3
    { atTop ["a", "b", "c"] with selectedIndex := 1, markedFiles := {"a"} } "b" (by decide) rfl

theorem files_isEmpty_of_in_range {s : State} (h1 : s.selectedIndex < (s.files.length : Int))
    (h0 : 0 ≤ s.selectedIndex) : s.files.isEmpty = false := by
  cases hf : s.files with
  | nil => rw [hf] at h1; simp at h1; omega
  | cons a l => rfl

/-- C6. With a non-empty listing and a selected entry, a rename to a non-empty name whose path
exists prints the already-exists message and a rename to the empty name prints the empty-name
message; in both cases `fs::rename` is not called and the function and the whole loop iteration
leave the state (listing, `selectedIndex`, `scrollOffset`, trace of mutating calls) as it was. -/
theorem rename_rejected_changes_nothing (H : Int) (s : State) (newName : String)
    (fs post : FS) (thrown : Option String) (h0 : 0 ≤ s.selectedIndex)
    (h1 : s.selectedIndex < (s.files.length : Int)) :
    (newName ≠ "" → fs.pathExists (s.currentPath ++ "/" ++ newName) = true →
      renameFileOrDirectory newName fs thrown post s =
        .ok (some "Error: File already exists! ", s) ∧
      step H (Action.rename newName fs thrown post) s = .ok s) ∧
    (renameFileOrDirectory "" fs thrown post s = .ok (some "Error: Name cannot be empty! ", s) ∧
      step H (Action.rename "" fs thrown post) s = .ok s) := by
  have hne := files_isEmpty_of_in_range h1 h0
  obtain ⟨x, _, hx⟩ := index_in_range h0 h1
  have h2 : s.selectedIndex < max 1 (s.files.length : Int) := by omega
  obtain ⟨y, hy⟩ := previewTarget_in_range h0 h2
  have e2 : renameFileOrDirectory "" fs thrown post s =
      .ok (some "Error: Name cannot be empty! ", s) := by
    simp [renameFileOrDirectory, hne, hx, bind, Except.bind]
  refine ⟨?_, e2, ?_⟩
  · intro hn hex
    have e1 : renameFileOrDirectory newName fs thrown post s =
        .ok (some "Error: File already exists! ", s) := by
      simp [renameFileOrDirectory, hne, hx, bind, Except.bind, hn, hex]
    refine ⟨e1, step_of_handle ?_ h0 h2⟩
    simp [handle, e1, hy, bind, Except.bind, pure, Except.pure]
  · refine step_of_handle ?_ h0 h2
    simp [handle, e2, hy, bind, Except.bind, pure, Except.pure]

/-- Witness of C6: renaming `a` to the existing `b`, and to the empty name. -/
theorem rename_rejected_changes_nothing_witness :
    (renameFileOrDirectory "b" (flatFS [("a", false), ("b", false)]) none
        (flatFS [("a", false), ("b", false)]) (atTop ["a", "b"]) =
        .ok (some "Error: File already exists! ", atTop ["a", "b"]) ∧
      step 3 (Action.rename "b" (flatFS [("a", false), ("b", false)]) none
        (flatFS [("a", false), ("b", false)])) (atTop ["a", "b"]) = .ok (atTop ["a", "b"])) ∧
    (renameFileOrDirectory "" (flatFS [("a", false), ("b", false)]) none
        (flatFS [("a", false), ("b", false)]) (atTop ["a", "b"]) =
        .ok (some "Error: Name cannot be empty! ", atTop ["a", "b"]) ∧
      step 3 (Action.rename "" (flatFS [("a", false), ("b", false)]) none
        (flatFS [("a", false), ("b", false)])) (atTop ["a", "b"]) = .ok (atTop ["a", "b"])) :=
  ⟨(rename_rejected_changes_nothing 3 (atTop ["a", "b"]) "b"
      (flatFS [("a", false), ("b", false)]) (flatFS [("a", false), ("b", false)]) none
      (by decide) (by decide)).1 (by decide) (by decide),
   (rename_rejected_changes_nothing 3 (atTop ["a", "b"]) "b"
      (flatFS [("a", false), ("b", false)]) (flatFS [("a", false), ("b", false)]) none
      (by decide) (by decide)).2⟩

/-- C3, the code at the failing input: one entry, a viewport of one row, the key `G` from the
top. The iteration ends with `selectedIndex = 0` and `scrollOffset = 1`, outside the window
`scrollOffset ≤ selectedIndex`. -/
theorem jumpBottom_leaves_window :
    run 1 [Action.jumpBottom] (atTop ["a"]) = .ok { atTop ["a"] with scrollOffset := 1 } ∧
    ¬ InWindow 1 { atTop ["a"] with scrollOffset := 1 } :=
  ⟨rfl, fun h => absurd h.1 (by decide)⟩

/-- C4, the code at two failing inputs. A successful rename from the last of five entries, shown
in a window of three rows from offset 2, ends with `selectedIndex = 0` and `scrollOffset = 2`;
a confirmed delete of the last of five entries with `scrollOffset = 4` ends with
`selectedIndex = 3` and `scrollOffset = 4`. Both start inside the invariant and end outside
the window. -/
theorem rename_and_delete_leave_window :
    (NavInvariant 3 { atTop ["a", "b", "c", "d", "e"] with selectedIndex := 4, scrollOffset := 2 } ∧
      step 3 (Action.rename "z"
          (flatFS [("a", false), ("b", false), ("c", false), ("d", false), ("e", false)]) none
          (flatFS [("a", false), ("b", false), ("c", false), ("d", false), ("z", false)]))
        { atTop ["a", "b", "c", "d", "e"] with selectedIndex := 4, scrollOffset := 2 } =
        .ok { atTop ["a", "b", "c", "d", "z"] with
          selectedIndex := 0, scrollOffset := 2,
          effects := [Effect.rename "/home/u/e" "/home/u/z"] } ∧
      ¬ InWindow 3 { atTop ["a", "b", "c", "d", "z"] with
          selectedIndex := 0, scrollOffset := 2,
          effects := [Effect.rename "/home/u/e" "/home/u/z"] }) ∧
    (NavInvariant 3 { atTop ["a", "b", "c", "d", "e"] with selectedIndex := 4, scrollOffset := 4 } ∧
      step 3 (Action.delete 121 (some 1)
          (flatFS [("a", false), ("b", false), ("c", false), ("d", false)]))
        { atTop ["a", "b", "c", "d", "e"] with selectedIndex := 4, scrollOffset := 4 } =
        .ok { atTop ["a", "b", "c", "d"] with
          selectedIndex := 3, scrollOffset := 4,
          effects := [Effect.removeAll "/home/u/e"] } ∧
      ¬ InWindow 3 { atTop ["a", "b", "c", "d"] with
          selectedIndex := 3, scrollOffset := 4,
          effects := [Effect.removeAll "/home/u/e"] }) :=
  ⟨⟨by unfold NavInvariant SelectionInRange InWindow; decide, rfl,
      fun h => absurd h.1 (by decide)⟩,
   ⟨by unfold NavInvariant SelectionInRange InWindow; decide, rfl,
      fun h => absurd h.1 (by decide)⟩⟩

/-- C5, the code at the failing input: the directory holds `a` and `b`, both are listed, the
filter prompt receives the key `a` and then Escape. The iteration ends with the listing `a`
alone, not with the listing of before. -/
theorem filter_escape_keeps_filtered_listing :
    getFiles (flatFS [("a", false), ("b", false)]) "/home/u" "/home/u" "" = ["a", "b"] ∧
    step 3 (Action.startFilter [97, 27] (flatFS [("a", false), ("b", false)]))
      (atTop ["a", "b"]) = .ok (atTop ["a"]) ∧
    (atTop ["a"]).files ≠ (atTop ["a", "b"]).files :=
  ⟨by decide, rfl, by decide⟩

/-- C9, the code at the failing input: five entries, a viewport of three rows, the key `G`.
The iteration ends with `selectedIndex = 4` and `scrollOffset = 3`, where the safe semantics
has `scrollOffset = 2`. -/
theorem jumpBottom_scroll_differs_from_safe :
    step 3 Action.jumpBottom (atTop ["a", "b", "c", "d", "e"]) =
      .ok { atTop ["a", "b", "c", "d", "e"] with selectedIndex := 4, scrollOffset := 3 } ∧
    jumpBottomSafe 3 (atTop ["a", "b", "c", "d", "e"]) =
      { atTop ["a", "b", "c", "d", "e"] with selectedIndex := 4, scrollOffset := 2 } ∧
    step 3 Action.jumpBottom (atTop ["a", "b", "c", "d", "e"]) ≠
      .ok (jumpBottomSafe 3 (atTop ["a", "b", "c", "d", "e"])) := by
  refine ⟨rfl, rfl, ?_⟩
  intro h
  have h2 : (3 : Int) = 2 := congrArg State.scrollOffset (Except.ok.inj h)
  exact absurd h2 (by decide)

/-- C10, the code at the failing input: the start directory is empty, or its walk throws at
once. The first preview reads `files[0]` of an empty vector. -/
theorem startup_reads_outside_empty_listing :
    startup (flatFS []) "/home/u" = .error Halt.outOfBounds ∧
    startup { readDir := fun _ => ⟨[], false⟩, isDirectory := fun _ => some false,
              pathExists := fun _ => false,
              abortedSort := fun _ files => ⟨files, List.Perm.refl files⟩ } "/home/u" =
      .error Halt.outOfBounds :=
  ⟨rfl, rfl⟩

/-! ## Supporting facts: what the loop does keep -/

theorem clamp_in_range (s : State) : SelectionInRange (clamp s) := by
  unfold SelectionInRange clamp
  simp only []
  split_ifs <;> (try dsimp only at *) <;> omega

theorem clamp_files (s : State) : (clamp s).files = s.files := by
  unfold clamp; simp only []; split_ifs <;> rfl

theorem clamp_scrollOffset (s : State) : (clamp s).scrollOffset = s.scrollOffset := by
  unfold clamp; simp only []; split_ifs <;> rfl

/-- The read of line 484 never fails: an iteration is its handler followed by the clamp. -/
theorem step_eq (H : Int) (a : Action) (s : State) :
    step H a s = (handle H a s).map clamp := by
  unfold step
  cases h : handle H a s with
  | error e => rfl
  | ok s1 =>
    obtain ⟨x, hx⟩ := previewTarget_in_range (clamp_in_range s1).1 (clamp_in_range s1).2
    simp [hx, bind, Except.bind, pure, Except.pure, Except.map]

theorem index_of_range {s : State} (hs : SelectionInRange s) (hne : s.files.isEmpty = false) :
    ∃ x, index s.files s.selectedIndex = .ok x := by
  have hlen : 1 ≤ (s.files.length : Int) := by
    cases hf : s.files with
    | nil => rw [hf] at hne; cases hne
    | cons a l => simp
  have h1 : s.selectedIndex < (s.files.length : Int) := by
    have := hs.2
    omega
  obtain ⟨x, _, hx⟩ := index_in_range hs.1 h1
  exact ⟨x, hx⟩

theorem previewTarget_top (files : List String) : ∃ x, previewTarget files 0 = .ok x :=
  previewTarget_in_range (le_refl 0) (by omega)

theorem previewTarget_of_range {s : State} (hs : SelectionInRange s) :
    ∃ x, previewTarget s.files s.selectedIndex = .ok x :=
  previewTarget_in_range hs.1 hs.2

/-- What `renameFileOrDirectory` returns from a state with the selection in range: no read
outside the vector, the selection still in range, `scrollOffset` untouched. -/
theorem renameFileOrDirectory_result (newName : String) (fs : FS) (thrown : Option String)
    (post : FS) (s : State) (hs : SelectionInRange s) :
    ∃ m s1, renameFileOrDirectory newName fs thrown post s = .ok (m, s1) ∧
      SelectionInRange s1 ∧ s1.scrollOffset = s.scrollOffset := by
  unfold renameFileOrDirectory
  cases hne : s.files.isEmpty with
  | true => exact ⟨_, _, rfl, hs, rfl⟩
  | false =>
    obtain ⟨x, hx⟩ := index_of_range hs hne
    simp only [hx, bind, Except.bind, Bool.false_eq_true, if_false]
    split_ifs
    · exact ⟨_, _, rfl, hs, rfl⟩
    · exact ⟨_, _, rfl, hs, rfl⟩
    · cases thrown with
      | none =>
        refine ⟨_, _, rfl, ?_, rfl⟩
        unfold SelectionInRange
        dsimp only
        omega
      | some what => exact ⟨_, _, rfl, hs, rfl⟩

theorem batchLoop_in_bounds (confirm : String → Int) (removed : String → Option Bool)
    (currentPath : String) (marks : List String) :
    ∀ effects, batchLoop confirm removed currentPath marks effects ≠ .error Halt.outOfBounds := by
  induction marks with
  | nil => intro effects h; cases h
  | cons file rest ih =>
    intro effects
    unfold batchLoop
    simp only []
    split_ifs
    · cases removed file with
      | none => intro h; cases h
      | some b => exact ih _
    · exact ih _

theorem filterLoop_in_bounds (fs : FS) (keys : List Int) :
    ∀ s, filterLoop fs keys s ≠ .error Halt.outOfBounds := by
  induction keys with
  | nil => intro s h; cases h
  | cons key rest ih =>
    intro s
    unfold filterLoop
    split_ifs
    · intro h; cases h
    · intro h; cases h
    all_goals exact ih _

/-- No handler reads `files[selectedIndex]` outside the vector when it starts with the selection
in range. -/
theorem handle_in_bounds (H : Int) (a : Action) (s : State) (hs : SelectionInRange s) :
    handle H a s ≠ .error Halt.outOfBounds := by
  cases a with
  | moveUp => intro h; cases h
  | moveDown => intro h; cases h
  | enter fs =>
    show enter fs s ≠ _
    unfold enter
    cases hne : s.files.isEmpty with
    | true => intro h; cases h
    | false =>
      obtain ⟨x, hx⟩ := index_of_range hs hne
      simp only [hx, bind, Except.bind, Bool.not_false, if_true]
      cases fs.isDirectory (s.currentPath ++ "/" ++ x) with
      | none => intro h; cases h
      | some isDir =>
        cases isDir with
        | true =>
          obtain ⟨y, hy⟩ := previewTarget_top (getFiles fs (s.currentPath ++ "/" ++ x)
            (s.currentPath ++ "/" ++ x) "")
          simp only [hy, if_true]
          intro h; cases h
        | false =>
          obtain ⟨y, hy⟩ := previewTarget_of_range hs
          simp only [hy, Bool.false_eq_true, if_false]
          intro h; cases h
  | leave parentPath fs => intro h; cases h
  | jumpBottom => intro h; cases h
  | gThen d =>
    show gThen d s ≠ _
    unfold gThen
    split_ifs <;> intro h <;> cases h
  | newFile name fs opened post => intro h; cases h
  | newDirectory name fs created post =>
    show newDirectory name fs created post s ≠ _
    unfold newDirectory
    simp only []
    split_ifs
    · intro h; cases h
    · cases created <;> intro h <;> cases h
  | rename newName fs thrown post =>
    obtain ⟨m, s1, h1, h2, _⟩ := renameFileOrDirectory_result newName fs thrown post s hs
    obtain ⟨y, hy⟩ := previewTarget_of_range h2
    simp only [handle, h1, hy, bind, Except.bind]
    intro h; cases h
  | delete confirm removed post =>
    show delete confirm removed post s ≠ _
    unfold delete
    cases hne : s.files.isEmpty with
    | true => intro h; cases h
    | false =>
      obtain ⟨x, hx⟩ := index_of_range hs hne
      simp only [hx, bind, Except.bind, Bool.not_false, if_true]
      split_ifs
      · cases removed with
        | none => intro h; cases h
        | some n =>
          dsimp only
          split_ifs <;> intro h <;> cases h
      · intro h; cases h
  | toggleMark =>
    show toggleMark s ≠ _
    unfold toggleMark
    cases hne : s.files.isEmpty with
    | true => intro h; cases h
    | false =>
      obtain ⟨x, hx⟩ := index_of_range hs hne
      simp only [hx, bind, Except.bind, Bool.not_false, if_true]
      split_ifs <;> intro h <;> cases h
  | batchDelete confirm removed post =>
    show batchDelete confirm removed post s ≠ _
    unfold batchDelete
    split_ifs
    · cases hb : batchLoop confirm removed s.currentPath
          (s.markedFiles.sort (· ≤ ·)) s.effects with
      | error e =>
        simp only [bind, Except.bind]
        intro h
        have he : e = Halt.outOfBounds := Except.error.inj h
        exact batchLoop_in_bounds confirm removed s.currentPath _ _ (he ▸ hb)
      | ok effects => intro h; cases h
    · intro h; cases h
  | startFilter keys fs => exact filterLoop_in_bounds fs keys _
  | quit => intro h; cases h
  | other => intro h; cases h

/-- An iteration that starts with the selection in range reads nothing outside the vector, and
every iteration that reaches the next one leaves the selection in range. -/
theorem step_in_bounds (H : Int) (a : Action) (s : State) :
    (SelectionInRange s → step H a s ≠ .error Halt.outOfBounds) ∧
    (∀ s1, step H a s = .ok s1 → SelectionInRange s1) := by
  rw [step_eq]
  constructor
  · intro hs h
    cases hh : handle H a s with
    | error e =>
      rw [hh] at h
      have : e = Halt.outOfBounds := Except.error.inj h
      exact handle_in_bounds H a s hs (this ▸ hh)
    | ok s1 => rw [hh] at h; cases h
  · intro s1 h
    cases hh : handle H a s with
    | error e => rw [hh] at h; cases h
    | ok s2 =>
      rw [hh] at h
      have : clamp s2 = s1 := Except.ok.inj h
      exact this ▸ clamp_in_range s2

/-- After a start that gets past its first preview, no sequence of iterations reads
`files[selectedIndex]` outside the vector. -/
theorem run_in_bounds (H : Int) (actions : List Action) :
    ∀ s, SelectionInRange s → run H actions s ≠ .error Halt.outOfBounds := by
  induction actions with
  | nil => intro s _ h; cases h
  | cons a rest ih =>
    intro s hs
    unfold run
    cases hh : step H a s with
    | error e =>
      intro h
      have : e = Halt.outOfBounds := Except.error.inj h
      exact (step_in_bounds H a s).1 hs (this ▸ hh)
    | ok s1 => exact ih s1 ((step_in_bounds H a s).2 s1 hh)

theorem startup_in_range (fs : FS) (home : String) (s : State)
    (h : startup fs home = .ok s) : SelectionInRange s := by
  unfold startup at h
  cases hi : index (getFiles fs home home "") 0 with
  | error e => simp [hi, bind, Except.bind] at h
  | ok x =>
    simp only [hi, bind, Except.bind, pure, Except.pure] at h
    have := Except.ok.inj h
    subst this
    unfold SelectionInRange
    dsimp only
    omega

/-- Where the window condition does survive the four navigation keys: with a viewport of at
least two rows, or with one row as long as the key is not `G`. The iteration always reaches the
next one and keeps the listing. -/
theorem move_keeps_invariant (H : Int) (a : Action) (s : State) (hm : isMove a = true)
    (hH : 1 ≤ H) (hG : a = Action.jumpBottom → 2 ≤ H) (hinv : NavInvariant H s) :
    ∃ s1, step H a s = .ok s1 ∧ s1.files = s.files ∧ NavInvariant H s1 := by
  obtain ⟨⟨h1, h2⟩, h3, h4, h5⟩ := hinv
  rw [step_eq]
  cases a with
  | moveUp =>
    refine ⟨_, rfl, ?_, ?_⟩
    · rw [clamp_files]; unfold moveUp; simp only []; split_ifs <;> rfl
    · unfold NavInvariant SelectionInRange InWindow clamp moveUp
      simp only []
      split_ifs <;> (try dsimp only at *) <;> omega
  | moveDown =>
    refine ⟨_, rfl, ?_, ?_⟩
    · rw [clamp_files]; unfold moveDown; simp only []; split_ifs <;> rfl
    · unfold NavInvariant SelectionInRange InWindow clamp moveDown
      simp only []
      split_ifs <;> (try dsimp only at *) <;> omega
  | jumpBottom =>
    have h6 := hG rfl
    refine ⟨_, rfl, ?_, ?_⟩
    · rw [clamp_files]; rfl
    · unfold NavInvariant SelectionInRange InWindow clamp jumpBottom
      simp only []
      split_ifs <;> (try dsimp only at *) <;> omega
  | gThen d =>
    have hd : d = 103 := by simpa [isMove] using hm
    subst hd
    refine ⟨_, rfl, ?_, ?_⟩
    · rw [clamp_files]
    · unfold NavInvariant SelectionInRange InWindow clamp
      simp only []
      split_ifs <;> (try dsimp only at *) <;> omega
  | enter fs => cases hm
  | leave parentPath fs => cases hm
  | newFile name fs opened post => cases hm
  | newDirectory name fs created post => cases hm
  | rename newName fs thrown post => cases hm
  | delete confirm removed post => cases hm
  | toggleMark => cases hm
  | batchDelete confirm removed post => cases hm
  | startFilter keys fs => cases hm
  | quit => cases hm
  | other => cases hm

/-- With a viewport of at least two rows every sequence of the four navigation keys reaches its
end, keeps the listing and keeps the three conditions of the navigation state. -/
theorem moves_keep_invariant (H : Int) (hH : 2 ≤ H) (actions : List Action) :
    ∀ s, (∀ a ∈ actions, isMove a = true) → NavInvariant H s →
      ∃ s1, run H actions s = .ok s1 ∧ s1.files = s.files ∧ NavInvariant H s1 := by
  induction actions with
  | nil => intro s _ hinv; exact ⟨s, rfl, rfl, hinv⟩
  | cons a rest ih =>
    intro s hm hinv
    obtain ⟨s1, e1, f1, i1⟩ := move_keeps_invariant H a s (hm a (List.mem_cons_self _ _))
      (by omega) (fun _ => hH) hinv
    obtain ⟨s2, e2, f2, i2⟩ := ih s1 (fun b hb => hm b (List.mem_cons_of_mem _ hb)) i1
    refine ⟨s2, ?_, f2.trans f1, i2⟩
    unfold run
    rw [e1]
    exact e2

end Tfm
